import Mathlib

/-!
# A verification development for the Minesweeper inference agent

This file gives a shallow embedding of `minesweeper.py` (the `Sentence`
class and the `MinesweeperAI` agent) and proves properties of the
embedding.  The embedding is faithful to the source, including its
quirks:

* the neighbour-building condition on line 215 reads
  `if i != 0 or j != 0 and not ((x+i, y+j) in self.moves_made)`, which by
  Python operator precedence parses as `i ≠ 0 ∨ (j ≠ 0 ∧ (x+i,y+j) ∉ moves_made)`;
* the bounds checks are hard-coded to `0 ≤ · ≤ 7` regardless of the
  `height`/`width` the agent was constructed with;
* the two passes over `self.knowledge` (lines 221-229 and 235-264) use
  Python's index-based `for` loop while removing elements, so a removal
  shifts the remaining elements and the element after the removed one is
  skipped; `list.remove` removes the first structurally equal element;
* `new_sentence` is an object aliased into the knowledge list, so the
  marking pass mutates it in place; once it is removed from the list the
  marking loops no longer touch it (the value is frozen);
* lines 271-273 and 278-280 consult the stale loop variable `sentence`
  left over from whichever `for` loop assigned it last: the removal loop
  on line 268 rebinds it whenever `data_to_be_removed` has more than one
  element (which is always the case when line 279 runs, since
  `data_to_be_removed` grows two entries per condensation), so line 279
  in fact tests the last element of `data_to_be_removed`;
* `make_random_move` falls through its last branch (`possible_moves[0]`
  with no `return`), returning `None`.

Machine integers are modelled as `ℤ` (Python integers are unbounded).
Python sets of cells are `Finset (ℤ × ℤ)`; iteration order over a Python
set is unspecified, so the model iterates in a fixed sorted order
(`sortedCells`), which is one of the allowed orders — all the uses are
order-independent.
-/

abbrev Cell := ℤ × ℤ

/-- A fixed total order on cells, used to list the elements of a Python
set (whose iteration order is unspecified) in a definite order. -/
def cellLe (a b : Cell) : Prop := a.1 < b.1 ∨ (a.1 = b.1 ∧ a.2 ≤ b.2)

instance : DecidableRel cellLe := fun a b =>
  inferInstanceAs (Decidable (a.1 < b.1 ∨ (a.1 = b.1 ∧ a.2 ≤ b.2)))

instance : IsTrans Cell cellLe := by
  constructor; intro a b c hab hbc
  rcases hab with h | ⟨h1, h2⟩ <;> rcases hbc with h' | ⟨h1', h2'⟩ <;>
    simp only [cellLe] <;> omega

instance : IsAntisymm Cell cellLe := by
  constructor; intro a b hab hba
  have h1 : a.1 = b.1 := by rcases hab with h | ⟨h, _⟩ <;> rcases hba with h' | ⟨h', _⟩ <;> omega
  have h2 : a.2 = b.2 := by rcases hab with h | ⟨_, h⟩ <;> rcases hba with h' | ⟨_, h'⟩ <;> omega
  exact Prod.ext h1 h2

instance : IsTotal Cell cellLe := by
  constructor; intro a b
  simp only [cellLe]; omega

/-- List the elements of a cell set in the fixed order (insertion sort,
lifted over the permutation quotient so it is well defined on
`Finset`). -/
def sortedCells (s : Finset Cell) : List Cell :=
  Quot.liftOn s.val (fun l => List.insertionSort cellLe l) fun _ _ h =>
    List.eq_of_perm_of_sorted
      ((List.perm_insertionSort _ _).trans (h.trans (List.perm_insertionSort _ _).symm))
      (List.sorted_insertionSort _ _) (List.sorted_insertionSort _ _)

/-- The `Sentence` class: a set of board cells and a count of how many of
them are mines (lines 86-137). -/
structure Sentence where
  cells : Finset Cell
  count : ℤ
deriving DecidableEq

/-- `Sentence.known_mines` (lines 103-110): all cells if
`len(self.cells) == self.count`, else the empty set. -/
def Sentence.known_mines (s : Sentence) : Finset Cell :=
  if (s.cells.card : ℤ) = s.count then s.cells else ∅

/-- `Sentence.known_safes` (lines 112-119): all cells if `count == 0`,
else the empty set. -/
def Sentence.known_safes (s : Sentence) : Finset Cell :=
  if s.count = 0 then s.cells else ∅

/-- `Sentence.mark_mine` (lines 121-128): if the cell is present, remove
it and decrement the count. -/
def Sentence.mark_mine (s : Sentence) (c : Cell) : Sentence :=
  if c ∈ s.cells then ⟨s.cells.erase c, s.count - 1⟩ else s

/-- `Sentence.mark_safe` (lines 130-136): if the cell is present, remove
it; the count is unchanged. -/
def Sentence.mark_safe (s : Sentence) (c : Cell) : Sentence :=
  if c ∈ s.cells then ⟨s.cells.erase c, s.count⟩ else s

/-- The mutable state of a `MinesweeperAI` (lines 144-158). -/
structure AIState where
  height : ℤ
  width : ℤ
  moves_made : Finset Cell
  mines : Finset Cell
  safes : Finset Cell
  knowledge : List Sentence
deriving DecidableEq

/-- `MinesweeperAI.__init__` (lines 144-158). -/
def initAI (h w : ℤ) : AIState :=
  { height := h, width := w, moves_made := ∅, mines := ∅, safes := ∅, knowledge := [] }

/-- `MinesweeperAI.mark_mine` (lines 160-167): add to the global mine set
and mark in every sentence. -/
def AIState.mark_mine (st : AIState) (c : Cell) : AIState :=
  { st with mines := insert c st.mines,
            knowledge := st.knowledge.map (fun s => s.mark_mine c) }

/-- `MinesweeperAI.mark_safe` (lines 169-176). -/
def AIState.mark_safe (st : AIState) (c : Cell) : AIState :=
  { st with safes := insert c st.safes,
            knowledge := st.knowledge.map (fun s => s.mark_safe c) }

/-- The 3×3 offset grid `i, j ∈ {-1, 0, 1}` of lines 212-213. -/
def offsets : Finset (ℤ × ℤ) := Finset.Icc (-1) 1 ×ˢ Finset.Icc (-1) 1

/-- The cell set of the sentence built by `add_knowledge` (lines 210-216).
Bounds are the source's hard-coded `0 ≤ · ≤ 7`; the condition on line 215
parses as `i ≠ 0 ∨ (j ≠ 0 ∧ (x+i, y+j) ∉ moves_made)` by Python
operator precedence. -/
def nbrCells (cell : Cell) (moves : Finset Cell) : Finset Cell :=
  (offsets.filter (fun p =>
      0 ≤ cell.1 + p.1 ∧ 0 ≤ cell.2 + p.2 ∧
      cell.1 + p.1 ≤ 7 ∧ cell.2 + p.2 ≤ 7 ∧
      (p.1 ≠ 0 ∨ (p.2 ≠ 0 ∧ (cell.1 + p.1, cell.2 + p.2) ∉ moves)))).image
    (fun p => (cell.1 + p.1, cell.2 + p.2))

/-- First index of a structurally equal sentence, as used by Python's
`list.remove` and `in`. -/
def idxEq : List Sentence → Sentence → Option ℕ
  | [], _ => none
  | a :: l, s => if a = s then some 0 else (idxEq l s).map (· + 1)

/-- `self.knowledge.remove(sentence)`: remove the first structurally
equal element (no-op when absent, which never happens at the live call
sites). -/
def eraseFirst (kl : List Sentence) (s : Sentence) : List Sentence :=
  match idxEq kl s with
  | none => kl
  | some r => kl.eraseIdx r

/-- Tracker for the `new_sentence` alias: `Sum.inl p` means the object
currently sits at index `p` of the knowledge list (so its value is the
list element there, kept in sync by in-place mutation); `Sum.inr v`
means it has been removed from the list and its value `v` is frozen. -/
def nsValOf (kl : List Sentence) : ℕ ⊕ Sentence → Sentence
  | Sum.inl p => kl.getD p ⟨∅, 0⟩
  | Sum.inr v => v

/-- `knowledge.remove(s)` together with the bookkeeping for the
`new_sentence` alias: if the removed slot is the alias itself the value
freezes, indices after the removed slot shift down. -/
def removeEqAdj (kl : List Sentence) (s : Sentence) (ns : ℕ ⊕ Sentence) :
    List Sentence × (ℕ ⊕ Sentence) :=
  match idxEq kl s with
  | none => (kl, ns)
  | some r =>
    (kl.eraseIdx r,
      match ns with
      | Sum.inl p =>
          if p = r then Sum.inr (kl.getD p ⟨∅, 0⟩)
          else if r < p then Sum.inl (p - 1) else Sum.inl p
      | Sum.inr v => Sum.inr v)

/-- State of the propagation pass (lines 221-229): knowledge list,
global safe and mine sets, and the `new_sentence` alias tracker. -/
structure PropSt where
  kl : List Sentence
  safes : Finset Cell
  mines : Finset Cell
  ns : ℕ ⊕ Sentence

/-- `self.mark_safe(c)` restricted to the data the propagation pass
touches. -/
def markSafeK (kl : List Sentence) (fs : Finset Cell) (c : Cell) :
    List Sentence × Finset Cell :=
  (kl.map (fun s => s.mark_safe c), insert c fs)

/-- `self.mark_mine(c)` restricted to the data the propagation pass
touches. -/
def markMineK (kl : List Sentence) (fs : Finset Cell) (c : Cell) :
    List Sentence × Finset Cell :=
  (kl.map (fun s => s.mark_mine c), insert c fs)

/-- `for safe in safe_cells: self.mark_safe(safe)` (lines 226-227). -/
def markSafesK : List Cell → List Sentence → Finset Cell → List Sentence × Finset Cell
  | [], kl, fs => (kl, fs)
  | c :: cs, kl, fs =>
      let r := markSafeK kl fs c
      markSafesK cs r.1 r.2

/-- `for mine in mine_cells: self.mark_mine(mine)` (lines 228-229). -/
def markMinesK : List Cell → List Sentence → Finset Cell → List Sentence × Finset Cell
  | [], kl, fs => (kl, fs)
  | c :: cs, kl, fs =>
      let r := markMineK kl fs c
      markMinesK cs r.1 r.2

/-- One iteration of the propagation pass (lines 222-229) on the
captured element `s`: remove it if its cell set is empty, then mark the
cells of its `known_safes()` and `known_mines()` (both captured before
any marking). -/
def stepA (p : PropSt) (s : Sentence) : PropSt :=
  let kn := if s.cells = ∅ then removeEqAdj p.kl s p.ns else (p.kl, p.ns)
  let ms := markSafesK (sortedCells s.known_safes) kn.1 p.safes
  let mm := markMinesK (sortedCells s.known_mines) ms.1 p.mines
  ⟨mm.1, ms.2, mm.2, kn.2⟩

/-- The propagation pass `for sentence in self.knowledge:` (lines
221-229) with Python's index-based iteration: removing an element shifts
the list, so the element after a removed one is skipped.  The fuel is
the length of the list at entry, which is enough because the index grows
by one per iteration and the list never grows during the pass. -/
def loopA : ℕ → PropSt → ℕ → PropSt
  | 0, p, _ => p
  | fuel + 1, p, i =>
    if h : i < p.kl.length then loopA fuel (stepA p (p.kl.get ⟨i, h⟩)) (i + 1)
    else p

/-- State of the condensation pass (lines 231-264): knowledge list, the
`new_sentence` alias tracker, `data_to_be_removed`, `condensed_data`,
and the value the loop variable `sentence` has when the pass ends
(consulted stale on line 272, and on line 279 when the removal loop of
line 268 — which rebinds `sentence` — has not run). -/
structure CondSt where
  kl : List Sentence
  ns : ℕ ⊕ Sentence
  data : List Sentence
  cnd : List Sentence
  lastS : Sentence

/-- One iteration of the condensation pass (lines 235-264) on the
element `s` at index `i`. -/
def stepB (moves : Finset Cell) (c : CondSt) (s : Sentence) (i : ℕ) : CondSt :=
  let nsv := nsValOf c.kl c.ns
  if s.cells = ∅ then
    let r := removeEqAdj c.kl s c.ns
    { c with kl := r.1, ns := r.2, lastS := s }
  else if s.cells.card = nsv.cells.card then
    { c with lastS := s }
  else if nsv.cells ⊆ s.cells then
    { c with data := c.data ++ [nsv, s],
             cnd := c.cnd ++ [⟨s.cells \ nsv.cells, s.count - nsv.count⟩],
             lastS := s }
  else if s.cells ⊆ nsv.cells then
    { c with data := c.data ++ [nsv, s],
             cnd := c.cnd ++ [⟨nsv.cells \ s.cells, nsv.count - s.count⟩],
             lastS := s }
  else
    let s2 : Sentence := ⟨s.cells \ moves, s.count⟩
    { c with kl := c.kl.set i s2, lastS := s2 }

/-- The condensation pass (lines 235-264), with the same index-based
iteration semantics as `loopA`. -/
def loopB (moves : Finset Cell) : ℕ → CondSt → ℕ → CondSt
  | 0, c, _ => c
  | fuel + 1, c, i =>
    if h : i < c.kl.length then
      loopB moves fuel (stepB moves c (c.kl.get ⟨i, h⟩) i) (i + 1)
    else c

/-- The insertion loop of lines 275-277: append each condensed sentence
unless a structurally equal one is already present. -/
def dedupAppend (kl : List Sentence) (cs : List Sentence) : List Sentence :=
  cs.foldl (fun k s => if s ∈ k then k else k ++ [s]) kl

/-- `MinesweeperAI.add_knowledge` (lines 178-280), assembled from the
pieces above in source order. -/
def add_knowledge (st : AIState) (cell : Cell) (count : ℤ) : AIState :=
  -- line 194: record the move
  let moves1 := insert cell st.moves_made
  let st1 : AIState := { st with moves_made := moves1 }
  -- lines 197-198: mark the cell safe unless already known safe
  let st2 := if cell ∈ st1.safes then st1 else st1.mark_safe cell
  -- lines 201-207: mark the cell safe in every sentence (for any list length
  -- the three branches amount to mapping `Sentence.mark_safe cell`)
  let kl0 := st2.knowledge.map (fun s => s.mark_safe cell)
  -- lines 210-219: build and append the new sentence
  let ns0 : Sentence := ⟨nbrCells cell moves1, count⟩
  let kl1 := kl0 ++ [ns0]
  -- lines 221-229: propagation pass
  let a := loopA kl1.length ⟨kl1, st2.safes, st2.mines, Sum.inl (kl1.length - 1)⟩ 0
  -- lines 231-264: condensation pass
  let b := loopB moves1 a.kl.length ⟨a.kl, a.ns, [], [], ⟨∅, 0⟩⟩ 0
  -- lines 267-273: remove the sentences scheduled for removal
  let kl2 :=
    if 1 < b.data.length then
      b.data.foldl (fun k s => if s ∈ k then eraseFirst k s else k) b.kl
    else if b.data.length = 1 then
      (if b.lastS ∈ b.kl then eraseFirst b.kl (b.data.getD 0 ⟨∅, 0⟩) else b.kl)
    else b.kl
  -- lines 274-280: insert the condensed sentences.  The one-element branch
  -- consults the stale variable `sentence`: the removal loop on line 268
  -- rebinds it to each element of `data_to_be_removed` whenever that list
  -- has more than one element, so by line 279 it holds the last element of
  -- `data_to_be_removed`; only when that loop did not run does the
  -- condensation pass's final value survive
  let lastS2 :=
    if 1 < b.data.length then b.data.getD (b.data.length - 1) ⟨∅, 0⟩ else b.lastS
  let kl3 :=
    if 1 < b.cnd.length then dedupAppend kl2 b.cnd
    else if b.cnd.length = 1 then
      (if lastS2 ∈ kl2 then kl2 else kl2 ++ [b.cnd.getD 0 ⟨∅, 0⟩])
    else kl2
  { height := st.height, width := st.width, moves_made := moves1,
    mines := a.mines, safes := a.safes, knowledge := kl3 }

/-- `MinesweeperAI.make_safe_move` (lines 282-290): `None` when no safe
cell is known, otherwise the first safe cell not yet played (set
iteration order modelled by `sortedCells`); implicit `None` when every
safe cell has been played. -/
def make_safe_move (st : AIState) : Option Cell :=
  if st.safes.card = 0 then none
  else (sortedCells st.safes).find? (fun m => !decide (m ∈ st.moves_made))

/-- The 8×8 board set built on lines 299-303. -/
def grid8 : Finset Cell := Finset.Icc 0 7 ×ˢ Finset.Icc 0 7

/-- `MinesweeperAI.make_random_move` (lines 292-323).  The outer `none`
models the `KeyError` crash of `board.remove(move)` when a played cell
is outside the 8×8 grid.  `some none` is Python's `None`.  The random
index of line 319 is supplied as the parameter `r` (clamped into range,
so every concrete outcome of `random.randint(0, len-1)` is realised by
some `r`).  The final branch mirrors line 323, which evaluates
`possible_moves[0]` without returning it, so the function yields `None`. -/
def make_random_move (st : AIState) (r : ℕ) : Option (Option Cell) :=
  if st.moves_made ⊆ grid8 then
    let remaining := grid8 \ st.moves_made
    let possible := (sortedCells remaining).filter (fun m => !decide (m ∈ st.mines))
    match possible.find? (fun m => st.knowledge.any (fun s => !decide (m ∈ s.cells))) with
    | some m => some (some m)
    | none =>
      if possible.length ≠ 1 ∧ possible.length ≠ 0 then
        some (some (possible.getD (min r (possible.length - 1)) (0, 0)))
      else if possible.length = 0 then some none
      else some none
  else none

/-! ## Semantic notions used to state the claims

The agent is played against a board.  Following the spec's default
configuration the board is the 8×8 grid; a board is identified with its
set `B` of mine cells.  `nbrs8` is the true 8-connected in-bounds
neighbourhood used by `Minesweeper.nearby_mines` (lines 54-77) on an
8×8 board. -/

/-- The true 8-connected neighbourhood of a cell, clipped to the 8×8
board (the loop of `Minesweeper.nearby_mines`, lines 65-75, with
`height = width = 8`). -/
def nbrs8 (cell : Cell) : Finset Cell :=
  (offsets.filter (fun p =>
      ¬(p.1 = 0 ∧ p.2 = 0) ∧
      0 ≤ cell.1 + p.1 ∧ 0 ≤ cell.2 + p.2 ∧
      cell.1 + p.1 ≤ 7 ∧ cell.2 + p.2 ≤ 7)).image
    (fun p => (cell.1 + p.1, cell.2 + p.2))

/-- `Minesweeper.nearby_mines` on an 8×8 board with mine set `B`. -/
def nearbyMines (B : Finset Cell) (cell : Cell) : ℤ :=
  ((nbrs8 cell).filter (fun c => c ∈ B)).card

/-- A sentence is sound for mine set `B` when its count is exactly the
number of its cells that are mines ("exactly `count` of these cells are
mines"). -/
def Sound1 (B : Finset Cell) (s : Sentence) : Prop :=
  s.count = ((s.cells.filter (fun c => c ∈ B)).card : ℤ)

/-- An agent state is consistent with the board `B`: every sentence is
sound, every recorded safe cell and played cell is mine-free, and every
recorded mine is a mine. -/
def SoundState (B : Finset Cell) (st : AIState) : Prop :=
  (∀ s ∈ st.knowledge, Sound1 B s) ∧
  st.safes ∩ B = ∅ ∧ st.mines ⊆ B ∧ st.moves_made ∩ B = ∅

/-- No sentence of the list mentions the cell `c`. -/
def Purged (c : Cell) (kl : List Sentence) : Prop :=
  ∀ s ∈ kl, c ∉ s.cells

/-- The frozen `new_sentence` value, if any, has an empty cell set (it
is only frozen when removed as an emptied sentence). -/
def NsEmpty : ℕ ⊕ Sentence → Prop
  | Sum.inl _ => True
  | Sum.inr v => v.cells = ∅

/-- The agent states reachable by public operations played consistently
against the (default 8×8) board with mine set `B`: cells are marked
mine only when they are mines, marked safe only when they are not, and
every clue passed to `add_knowledge` is a truthful
`nearby_mines` answer for a mine-free cell. -/
inductive Reaches (B : Finset Cell) : AIState → Prop
  | start (h w : ℤ) : Reaches B (initAI h w)
  | addK {st : AIState} (cell : Cell) (hst : Reaches B st) (hc : cell ∉ B) :
      Reaches B (add_knowledge st cell (nearbyMines B cell))
  | markM {st : AIState} (c : Cell) (hst : Reaches B st) (hc : c ∈ B) :
      Reaches B (st.mark_mine c)
  | markS {st : AIState} (c : Cell) (hst : Reaches B st) (hc : c ∉ B) :
      Reaches B (st.mark_safe c)

/-! ## Concrete example states -/

/-- An agent that has (consistently) flagged the mine at `(0,0)` and
learnt nothing else. -/
def c1pre : AIState := (initAI 8 8).mark_mine (0, 0)

/-- An agent state used for the C1 amended-claim witness: one live
sentence `{(5,5),(0,0)} = 1`. -/
def c1wpre : AIState := ⟨8, 8, ∅, ∅, ∅, [⟨{((5, 5) : Cell), (0, 0)}, 1⟩]⟩

/-- An agent whose knowledge base holds `{A,B,C} = 2` with
`A = (1,0)`, `B = (1,1)`, `C = (2,2)`, and which has already played the
safe cell `(0,1)` (consistent with mines exactly at `(1,0)` and
`(2,2)`).  Observing `(0,0)` with count 1 then supplies the sentence
`{A,B} = 1`. -/
def c2pre : AIState :=
  ⟨8, 8, {((0, 1) : Cell)}, ∅, {((0, 1) : Cell)},
    [⟨{((1, 0) : Cell), (1, 1), (2, 2)}, 2⟩]⟩

/-- An agent that has played every cell of the 8×8 board except
`(0,0)` and knows of no mines: exactly one legal move remains. -/
def c8pre : AIState := ⟨8, 8, grid8.erase (0, 0), ∅, ∅, []⟩

/-! ## Theorems -/

/-- Membership in the sorted listing of a cell set. -/
theorem mem_sortedCells {s : Finset Cell} {c : Cell} :
    c ∈ sortedCells s ↔ c ∈ s := by
  obtain ⟨m, hm⟩ := s
  induction m using Quot.inductionOn with
  | _ l => exact (List.perm_insertionSort cellLe l).mem_iff

/-- A list lookup with default stays inside the grid when all entries
and the default do. -/
theorem getD_mem_grid (l : List Cell) (n : ℕ) (d : Cell)
    (hl : ∀ x ∈ l, x ∈ grid8) (hd : d ∈ grid8) : l.getD n d ∈ grid8 := by
  induction l generalizing n with
  | nil => exact hd
  | cons a l ih =>
    cases n with
    | zero => exact hl a (by simp)
    | succ n =>
      rw [List.getD_cons_succ]
      exact ih n (fun x hx => hl x (by simp [hx]))

/-- Claim C6: `known_mines()` returns the full cell set when the count
equals the number of cells and the empty set otherwise; `known_safes()`
returns the full cell set when the count is zero and the empty set
otherwise; the empty sentence with count 0 yields the empty set from
both, not a contradiction. -/
theorem c6_known_mines_safes_spec (s : Sentence) :
    (s.count = (s.cells.card : ℤ) → s.known_mines = s.cells) ∧
    (s.count ≠ (s.cells.card : ℤ) → s.known_mines = ∅) ∧
    (s.count = 0 → s.known_safes = s.cells) ∧
    (s.count ≠ 0 → s.known_safes = ∅) ∧
    Sentence.known_mines ⟨∅, 0⟩ = ∅ ∧ Sentence.known_safes ⟨∅, 0⟩ = ∅ := by
  refine ⟨?_, ?_, ?_, ?_, by decide, by decide⟩
  · intro h; rw [Sentence.known_mines, if_pos h.symm]
  · intro h; rw [Sentence.known_mines, if_neg (fun hh => h hh.symm)]
  · intro h; rw [Sentence.known_safes, if_pos h]
  · intro h; rw [Sentence.known_safes, if_neg h]

/-- Witness for C6 at the concrete sentence `{(0,0)} = 1`: a fully
determined sentence reports all its cells as mines and none as safe. -/
theorem c6_known_mines_safes_spec_witness :
    Sentence.known_mines ⟨{((0, 0) : Cell)}, 1⟩ = {((0, 0) : Cell)} ∧
    Sentence.known_safes ⟨{((0, 0) : Cell)}, 1⟩ = ∅ :=
  ⟨(c6_known_mines_safes_spec ⟨{((0, 0) : Cell)}, 1⟩).1 (by decide),
   (c6_known_mines_safes_spec ⟨{((0, 0) : Cell)}, 1⟩).2.2.2.1 (by decide)⟩

/-- Claim C3 (code bug): with `(0,0)` already played, the sentence built
for the observation at `(1,0)` nevertheless contains `(0,0)`.  The
`moves_made` exclusion on line 215 is short-circuited for any neighbour
with `i ≠ 0` because `or` binds more loosely than `and` in Python, so
already-played cells in a different row re-enter the fresh sentence
(and the bounds on line 214 are `0..7` rather than
`[0, height) × [0, width)`). -/
theorem c3_played_neighbor_included :
    ((0, 0) : Cell) ∈ ({((0, 0) : Cell)} : Finset Cell) ∧
    ((0, 0) : Cell) ∈ nbrCells (1, 0) {((0, 0) : Cell)} ∧
    nbrCells (1, 0) {((0, 0) : Cell)} =
      {((0, 0) : Cell), (0, 1), (1, 1), (2, 0), (2, 1)} := by decide

/-- Claim C8 (code bug): with exactly one cell left that is neither
played nor a known mine and an empty knowledge base, `make_random_move`
returns `None` instead of that cell — line 323 evaluates
`possible_moves[0]` without returning it. -/
theorem c8_single_candidate_returns_none :
    ((0, 0) : Cell) ∉ c8pre.moves_made ∧ ((0, 0) : Cell) ∉ c8pre.mines ∧
    ((0, 0) : Cell) ∈ grid8 ∧
    make_random_move c8pre 0 = some none := by decide

/-- Claim C2 (code bug): from the knowledge base `[{A,B,C} = 2]` with
`A = (1,0)`, `B = (1,1)`, `C = (2,2)`, observing `(0,0)` with count 1
supplies `{A,B} = 1`; condensation derives `{C} = 1` and stores it, but
`C` is never added to `mines` — the marking pass (lines 221-229) runs
before condensation and the two are not interleaved to a fixpoint. -/
theorem c2_condensed_singleton_not_marked :
    (add_knowledge c2pre (0, 0) 1).knowledge = [⟨{((2, 2) : Cell)}, 1⟩] ∧
    ((2, 2) : Cell) ∉ (add_knowledge c2pre (0, 0) 1).mines := by decide

/-- Counterexample to claim C1 as stated: after consistently flagging
the mine `(0,0)` and then observing the safe cell `(1,1)` with count 1,
the sentence just added still contains `(0,0)` even though `(0,0)` is in
the agent's `mines` set — the new sentence is never filtered against
the already-known cells and no second propagation pass runs. -/
theorem c1_stale_mine_remains :
    ((0, 0) : Cell) ∈ (add_knowledge c1pre (1, 1) 1).mines ∧
    ∃ s ∈ (add_knowledge c1pre (1, 1) 1).knowledge, (0, 0) ∈ s.cells := by decide

/-- Counterexample to claim C5 as stated: supplying the observation
`((0,0), 1)` twice leaves two structurally equal sentences in the
knowledge base — the per-observation sentence is appended on line 219
without any duplicate check. -/
theorem c5_duplicate_after_reobservation :
    ¬ (add_knowledge (add_knowledge (initAI 8 8) (0, 0) 1) (0, 0) 1).knowledge.Nodup := by
  decide

/-- Claim C5, amended: the condensed-sentence insertion loop (lines
275-277) never inserts a sentence structurally equal to one already
present, hence preserves the no-duplicates property of the knowledge
base; the per-observation new sentence, however, is appended without a
duplicate check, so the knowledge base can contain two structurally
equal sentences. -/
theorem c5_condensed_insert_nodup (kl cs : List Sentence) (h : kl.Nodup) :
    (dedupAppend kl cs).Nodup := by
  induction cs generalizing kl with
  | nil => exact h
  | cons c cs ih =>
    show (dedupAppend (if c ∈ kl then kl else kl ++ [c]) cs).Nodup
    by_cases hc : c ∈ kl
    · rw [if_pos hc]; exact ih kl h
    · rw [if_neg hc]
      refine ih _ ?_
      simp [List.nodup_append, h, hc]

/-- Witness for the amended C5: inserting the same condensed sentence
twice into an empty base yields a duplicate-free base. -/
theorem c5_condensed_insert_nodup_witness :
    (dedupAppend [] [⟨{((0, 0) : Cell)}, 1⟩, ⟨{((0, 0) : Cell)}, 1⟩]).Nodup :=
  c5_condensed_insert_nodup [] [⟨{((0, 0) : Cell)}, 1⟩, ⟨{((0, 0) : Cell)}, 1⟩]
    List.nodup_nil

/-- Claim C10: whatever `height` and `width` the agent was constructed
with, every cell placed into the sentence built by `add_knowledge`
(its cell set is `nbrCells`) and every cell returned by
`make_random_move` lies on the fixed 8×8 grid `[0,8) × [0,8)`. -/
theorem c10_cells_within_fixed_grid :
    (∀ (cell : Cell) (moves : Finset Cell) (c : Cell),
        c ∈ nbrCells cell moves → c ∈ grid8) ∧
    (∀ (st : AIState) (r : ℕ) (c : Cell),
        make_random_move st r = some (some c) → c ∈ grid8) := by
  constructor
  · intro cell moves c hc
    simp only [nbrCells, Finset.mem_image, Finset.mem_filter] at hc
    obtain ⟨p, ⟨-, h1, h2, h3, h4, -⟩, rfl⟩ := hc
    simp only [grid8, Finset.mem_product, Finset.mem_Icc]
    exact ⟨⟨h1, h3⟩, ⟨h2, h4⟩⟩
  · intro st r c h
    unfold make_random_move at h
    split at h
    case isTrue hsub =>
      dsimp only at h
      have hmem : ∀ m ∈ (sortedCells (grid8 \ st.moves_made)).filter
          (fun m => !decide (m ∈ st.mines)), m ∈ grid8 := by
        intro m hm
        have h1 := (List.mem_filter.mp hm).1
        exact (Finset.mem_sdiff.mp (mem_sortedCells.mp h1)).1
      split at h
      case h_1 m heq =>
        obtain rfl : m = c := by injection h with h; injection h
        exact hmem m (List.mem_of_find?_eq_some heq)
      case h_2 heq =>
        split at h
        case isTrue hlen =>
          obtain rfl : _ = c := by injection h with h; injection h
          exact getD_mem_grid _ _ _ hmem (by decide)
        case isFalse =>
          split at h <;> simp at h
    case isFalse => simp at h

/-- Witness for C10 at concrete inputs: the neighbour `(0,1)` of the
corner observation and the cell returned by `make_random_move` on a
fresh agent are both on the 8×8 grid. -/
theorem c10_cells_within_fixed_grid_witness :
    ((0, 1) : Cell) ∈ grid8 ∧ ((0, 0) : Cell) ∈ grid8 :=
  ⟨c10_cells_within_fixed_grid.1 (0, 0) ∅ (0, 1) (by decide),
   c10_cells_within_fixed_grid.2 (initAI 8 8) 0 (0, 0) (by decide)⟩

/-! ### Soundness of the primitive operations

A sentence is `Sound1 B` when its count is exactly the number of its
cells lying in the mine set `B`.  Every operation of the agent preserves
this when driven by truthful information. -/

/-- Marking cells only ever shrinks a sentence's cell set. -/
theorem mark_safe_cells_subset (s : Sentence) (c : Cell) :
    (s.mark_safe c).cells ⊆ s.cells := by
  unfold Sentence.mark_safe
  split
  · exact Finset.erase_subset _ _
  · exact Finset.Subset.refl _

/-- Marking cells only ever shrinks a sentence's cell set. -/
theorem mark_mine_cells_subset (s : Sentence) (c : Cell) :
    (s.mark_mine c).cells ⊆ s.cells := by
  unfold Sentence.mark_mine
  split
  · exact Finset.erase_subset _ _
  · exact Finset.Subset.refl _

/-- After marking `c` safe, `c` is gone from the sentence. -/
theorem not_mem_mark_safe (s : Sentence) (c : Cell) : c ∉ (s.mark_safe c).cells := by
  unfold Sentence.mark_safe
  split
  · simp
  · assumption

/-- After marking `c` a mine, `c` is gone from the sentence. -/
theorem not_mem_mark_mine (s : Sentence) (c : Cell) : c ∉ (s.mark_mine c).cells := by
  unfold Sentence.mark_mine
  split
  · simp
  · assumption

/-- `mark_safe` preserves soundness when the marked cell is not a mine. -/
theorem Sound1_mark_safe {B : Finset Cell} {s : Sentence} {c : Cell}
    (hc : c ∉ B) (hs : Sound1 B s) : Sound1 B (s.mark_safe c) := by
  by_cases hmem : c ∈ s.cells
  · unfold Sound1 at hs ⊢
    simp only [Sentence.mark_safe, if_pos hmem]
    rw [Finset.filter_erase, Finset.erase_eq_of_not_mem (by simp [hc])]
    exact hs
  · simpa [Sentence.mark_safe, hmem] using hs

/-- `mark_mine` preserves soundness when the marked cell is a mine. -/
theorem Sound1_mark_mine {B : Finset Cell} {s : Sentence} {c : Cell}
    (hc : c ∈ B) (hs : Sound1 B s) : Sound1 B (s.mark_mine c) := by
  by_cases hmem : c ∈ s.cells
  · have hcf : c ∈ s.cells.filter (fun x => x ∈ B) := Finset.mem_filter.mpr ⟨hmem, hc⟩
    have hpos : 0 < (s.cells.filter (fun x => x ∈ B)).card := Finset.card_pos.mpr ⟨c, hcf⟩
    unfold Sound1 at hs ⊢
    simp only [Sentence.mark_mine, if_pos hmem]
    rw [Finset.filter_erase, Finset.card_erase_of_mem hcf]
    omega
  · simpa [Sentence.mark_mine, hmem] using hs

/-- For a sound sentence, `known_safes` only reports non-mines. -/
theorem known_safes_not_mine {B : Finset Cell} {s : Sentence} (hs : Sound1 B s)
    {c : Cell} (hc : c ∈ s.known_safes) : c ∉ B := by
  unfold Sentence.known_safes at hc
  split at hc
  case isTrue h0 =>
    intro hcB
    have hzero : (s.cells.filter (fun x => x ∈ B)).card = 0 := by
      unfold Sound1 at hs; omega
    have hfe : s.cells.filter (fun x => x ∈ B) = ∅ := Finset.card_eq_zero.mp hzero
    have hcm : c ∈ s.cells.filter (fun x => x ∈ B) := Finset.mem_filter.mpr ⟨hc, hcB⟩
    rw [hfe] at hcm
    exact absurd hcm (Finset.not_mem_empty c)
  case isFalse => exact absurd hc (Finset.not_mem_empty c)

/-- For a sound sentence, `known_mines` only reports mines. -/
theorem known_mines_mine {B : Finset Cell} {s : Sentence} (hs : Sound1 B s)
    {c : Cell} (hc : c ∈ s.known_mines) : c ∈ B := by
  unfold Sentence.known_mines at hc
  split at hc
  case isTrue heq =>
    have hcard : s.cells.card ≤ (s.cells.filter (fun x => x ∈ B)).card := by
      unfold Sound1 at hs; omega
    have hfe : s.cells.filter (fun x => x ∈ B) = s.cells :=
      Finset.eq_of_subset_of_card_le (Finset.filter_subset _ _) hcard
    have hcm : c ∈ s.cells.filter (fun x => x ∈ B) := by rw [hfe]; exact hc
    exact (Finset.mem_filter.mp hcm).2
  case isFalse => exact absurd hc (Finset.not_mem_empty c)

/-- Condensing a sound sentence by a sound subset sentence is sound. -/
theorem Sound1_condense {B : Finset Cell} {s n : Sentence}
    (hs : Sound1 B s) (hn : Sound1 B n) (hsub : n.cells ⊆ s.cells) :
    Sound1 B ⟨s.cells \ n.cells, s.count - n.count⟩ := by
  have hfe : (s.cells \ n.cells).filter (fun x => x ∈ B) =
      s.cells.filter (fun x => x ∈ B) \ n.cells.filter (fun x => x ∈ B) := by
    ext x
    simp only [Finset.mem_filter, Finset.mem_sdiff]
    tauto
  have hsubf : n.cells.filter (fun x => x ∈ B) ⊆ s.cells.filter (fun x => x ∈ B) :=
    Finset.filter_subset_filter _ hsub
  have hcard := Finset.card_sdiff hsubf
  have hle := Finset.card_le_card hsubf
  unfold Sound1 at hs hn ⊢
  show s.count - n.count = (((s.cells \ n.cells).filter (fun x => x ∈ B)).card : ℤ)
  rw [hfe, hcard]
  omega

/-- Dropping played (mine-free) cells from a sentence without touching
the count is sound. -/
theorem Sound1_sdiff_moves {B : Finset Cell} {s : Sentence} {moves : Finset Cell}
    (hmoves : moves ∩ B = ∅) (hs : Sound1 B s) :
    Sound1 B ⟨s.cells \ moves, s.count⟩ := by
  have hfe : (s.cells \ moves).filter (fun x => x ∈ B) =
      s.cells.filter (fun x => x ∈ B) := by
    ext x
    simp only [Finset.mem_filter, Finset.mem_sdiff]
    constructor
    · rintro ⟨⟨h1, -⟩, h2⟩; exact ⟨h1, h2⟩
    · rintro ⟨h1, h2⟩
      refine ⟨⟨h1, fun hm => ?_⟩, h2⟩
      have hx : x ∈ moves ∩ B := Finset.mem_inter.mpr ⟨hm, h2⟩
      rw [hmoves] at hx
      exact absurd hx (Finset.not_mem_empty x)
  unfold Sound1 at hs ⊢
  rw [hfe]
  exact hs

/-- The mines among the sentence actually built by `add_knowledge` are
exactly the mines among the true neighbourhood: the only neighbours the
construction drops are already-played cells, which are mine-free. -/
theorem filter_nbrCells_eq {B : Finset Cell} {cell : Cell} {moves : Finset Cell}
    (hmoves : moves ∩ B = ∅) :
    (nbrCells cell moves).filter (fun x => x ∈ B) =
    (nbrs8 cell).filter (fun x => x ∈ B) := by
  ext x
  simp only [nbrCells, nbrs8, Finset.mem_filter, Finset.mem_image]
  constructor
  · rintro ⟨⟨p, ⟨hpo, h1, h2, h3, h4, h5⟩, rfl⟩, hB⟩
    refine ⟨⟨p, ⟨hpo, ?_, h1, h2, h3, h4⟩, rfl⟩, hB⟩
    rintro ⟨e1, e2⟩
    rcases h5 with h | ⟨h, -⟩
    · exact h e1
    · exact h e2
  · rintro ⟨⟨p, ⟨hpo, hne, h1, h2, h3, h4⟩, rfl⟩, hB⟩
    refine ⟨⟨p, ⟨hpo, h1, h2, h3, h4, ?_⟩, rfl⟩, hB⟩
    by_cases hi : p.1 = 0
    · refine Or.inr ⟨fun hj => hne ⟨hi, hj⟩, fun hm => ?_⟩
      have hx : (cell.1 + p.1, cell.2 + p.2) ∈ moves ∩ B := Finset.mem_inter.mpr ⟨hm, hB⟩
      rw [hmoves] at hx
      exact absurd hx (Finset.not_mem_empty _)
    · exact Or.inl hi

/-- The sentence built from a truthful clue is sound. -/
theorem Sound1_new {B : Finset Cell} (cell : Cell) (moves : Finset Cell)
    (hmoves : moves ∩ B = ∅) :
    Sound1 B ⟨nbrCells cell moves, nearbyMines B cell⟩ := by
  unfold Sound1 nearbyMines
  simp only
  rw [filter_nbrCells_eq hmoves]

/-! ### Lemmas about the list plumbing -/

/-- A defaulted lookup is an element of the list or the default. -/
theorem getD_mem_or_default {α : Type} (l : List α) (n : ℕ) (d : α) :
    l.getD n d ∈ l ∨ l.getD n d = d := by
  induction l generalizing n with
  | nil => exact Or.inr rfl
  | cons a l ih =>
    cases n with
    | zero => exact Or.inl (by simp)
    | succ n =>
      rw [List.getD_cons_succ]
      rcases ih n with h | h
      · exact Or.inl (List.mem_cons_of_mem a h)
      · exact Or.inr h

/-- `idxEq` finds an index holding the sentence searched for. -/
theorem idxEq_spec {kl : List Sentence} {s : Sentence} {r : ℕ}
    (h : idxEq kl s = some r) : kl.getD r ⟨∅, 0⟩ = s := by
  induction kl generalizing r with
  | nil => exact absurd h (by simp [idxEq])
  | cons a l ih =>
    unfold idxEq at h
    split at h
    case isTrue ha =>
      injection h with h
      subst h
      simpa using ha
    case isFalse ha =>
      cases hr : idxEq l s with
      | none => rw [hr] at h; exact absurd h (by simp)
      | some r' =>
        rw [hr] at h
        simp only [Option.map_some'] at h
        injection h with h
        subst h
        rw [List.getD_cons_succ]
        exact ih hr

/-- Whatever `removeEqAdj` keeps was already in the list. -/
theorem removeEqAdj_fst_sub {kl : List Sentence} {s : Sentence} {ns : ℕ ⊕ Sentence} :
    ∀ t ∈ (removeEqAdj kl s ns).1, t ∈ kl := by
  unfold removeEqAdj
  split
  · exact fun t ht => ht
  · exact fun t ht => (List.eraseIdx_sublist _ _).subset ht

/-- If `removeEqAdj` yields a frozen tracker, its value either was
frozen before or is the (just removed) sentence `s` itself. -/
theorem removeEqAdj_snd_frozen {kl : List Sentence} {s : Sentence} {ns : ℕ ⊕ Sentence}
    {v : Sentence} (h : (removeEqAdj kl s ns).2 = Sum.inr v) :
    ns = Sum.inr v ∨ v = s := by
  unfold removeEqAdj at h
  split at h
  · exact Or.inl h
  case h_2 r heq =>
    cases ns with
    | inl p =>
      simp only at h
      split at h
      case isTrue hpr =>
        injection h with h
        subst h
        subst hpr
        exact Or.inr (idxEq_spec heq)
      case isFalse =>
        split at h <;> exact absurd h (by simp)
    | inr w =>
      simp only at h
      injection h with h
      subst h
      exact Or.inl rfl

/-- Removal keeps every still-present sentence sound and freezes only
sound values (given the removed sentence is sound). -/
theorem removeEqAdj_sound {B : Finset Cell} {kl : List Sentence} {s : Sentence}
    {ns : ℕ ⊕ Sentence} (hs : Sound1 B s) (hkl : ∀ t ∈ kl, Sound1 B t)
    (hfr : ∀ v, ns = Sum.inr v → Sound1 B v) :
    (∀ t ∈ (removeEqAdj kl s ns).1, Sound1 B t) ∧
    (∀ v, (removeEqAdj kl s ns).2 = Sum.inr v → Sound1 B v) := by
  refine ⟨fun t ht => hkl t (removeEqAdj_fst_sub t ht), fun v hv => ?_⟩
  rcases removeEqAdj_snd_frozen hv with h | h
  · exact hfr v h
  · rw [h]; exact hs

/-- Whatever survives `eraseFirst` was in the list. -/
theorem mem_eraseFirst {kl : List Sentence} {s t : Sentence}
    (h : t ∈ eraseFirst kl s) : t ∈ kl := by
  unfold eraseFirst at h
  split at h
  · exact h
  · exact (List.eraseIdx_sublist _ _).subset h

/-- Whatever survives the removal fold of lines 268-270 was in the list. -/
theorem mem_foldl_erase {data kl : List Sentence} {t : Sentence}
    (h : t ∈ data.foldl (fun k s => if s ∈ k then eraseFirst k s else k) kl) :
    t ∈ kl := by
  induction data generalizing kl with
  | nil => exact h
  | cons a as ih =>
    simp only [List.foldl_cons] at h
    have h2 := ih h
    split at h2
    · exact mem_eraseFirst h2
    · exact h2

/-- Whatever `dedupAppend` produces came from the base or the inserts. -/
theorem mem_dedupAppend {kl cs : List Sentence} {t : Sentence}
    (h : t ∈ dedupAppend kl cs) : t ∈ kl ∨ t ∈ cs := by
  induction cs generalizing kl with
  | nil => exact Or.inl h
  | cons a as ih =>
    have h' : t ∈ dedupAppend (if a ∈ kl then kl else kl ++ [a]) as := h
    rcases ih h' with h1 | h1
    · split at h1
      · exact Or.inl h1
      · rcases List.mem_append.mp h1 with h2 | h2
        · exact Or.inl h2
        · exact Or.inr (by simpa using Or.inl (List.mem_singleton.mp h2))
    · exact Or.inr (by simp [h1])

/-! ### Soundness through the propagation pass -/

/-- The global set only grows under the safe-marking fold. -/
theorem markSafesK_snd_grow (cs : List Cell) (kl : List Sentence) (fs : Finset Cell) :
    fs ⊆ (markSafesK cs kl fs).2 := by
  induction cs generalizing kl fs with
  | nil => exact Finset.Subset.refl _
  | cons c cs ih =>
    exact Finset.Subset.trans (Finset.subset_insert c fs) (ih _ _)

/-- The global set only grows under the mine-marking fold. -/
theorem markMinesK_snd_grow (cs : List Cell) (kl : List Sentence) (fs : Finset Cell) :
    fs ⊆ (markMinesK cs kl fs).2 := by
  induction cs generalizing kl fs with
  | nil => exact Finset.Subset.refl _
  | cons c cs ih =>
    exact Finset.Subset.trans (Finset.subset_insert c fs) (ih _ _)

/-- Cells in the grown safe set come from the old set or the marked list. -/
theorem markSafesK_snd_mem {cs : List Cell} {kl : List Sentence} {fs : Finset Cell}
    {c : Cell} (h : c ∈ (markSafesK cs kl fs).2) : c ∈ fs ∨ c ∈ cs := by
  induction cs generalizing kl fs with
  | nil => exact Or.inl h
  | cons a as ih =>
    rcases @ih (markSafeK kl fs a).1 (markSafeK kl fs a).2 h with h1 | h1
    · rcases Finset.mem_insert.mp h1 with h2 | h2
      · exact Or.inr (by simp [h2])
      · exact Or.inl h2
    · exact Or.inr (by simp [h1])

/-- Cells in the grown mine set come from the old set or the marked list. -/
theorem markMinesK_snd_mem {cs : List Cell} {kl : List Sentence} {fs : Finset Cell}
    {c : Cell} (h : c ∈ (markMinesK cs kl fs).2) : c ∈ fs ∨ c ∈ cs := by
  induction cs generalizing kl fs with
  | nil => exact Or.inl h
  | cons a as ih =>
    rcases @ih (markMineK kl fs a).1 (markMineK kl fs a).2 h with h1 | h1
    · rcases Finset.mem_insert.mp h1 with h2 | h2
      · exact Or.inr (by simp [h2])
      · exact Or.inl h2
    · exact Or.inr (by simp [h1])

/-- Marking a list of true non-mines keeps every sentence sound and the
safe set mine-free. -/
theorem markSafesK_sound {B : Finset Cell} {cs : List Cell} {kl : List Sentence}
    {fs : Finset Cell} (hcs : ∀ c ∈ cs, c ∉ B) (hkl : ∀ t ∈ kl, Sound1 B t)
    (hfs : fs ∩ B = ∅) :
    (∀ t ∈ (markSafesK cs kl fs).1, Sound1 B t) ∧ (markSafesK cs kl fs).2 ∩ B = ∅ := by
  induction cs generalizing kl fs with
  | nil => exact ⟨hkl, hfs⟩
  | cons c cs ih =>
    refine ih (fun x hx => hcs x (by simp [hx])) ?_ ?_
    · intro t ht
      simp only [markSafeK, List.mem_map] at ht
      obtain ⟨u, hu, rfl⟩ := ht
      exact Sound1_mark_safe (hcs c (by simp)) (hkl u hu)
    · show insert c fs ∩ B = ∅
      rw [Finset.insert_inter_of_not_mem (hcs c (by simp))]
      exact hfs

/-- Marking a list of true mines keeps every sentence sound and the
mine set inside the board's mine set. -/
theorem markMinesK_sound {B : Finset Cell} {cs : List Cell} {kl : List Sentence}
    {fs : Finset Cell} (hcs : ∀ c ∈ cs, c ∈ B) (hkl : ∀ t ∈ kl, Sound1 B t)
    (hfs : fs ⊆ B) :
    (∀ t ∈ (markMinesK cs kl fs).1, Sound1 B t) ∧ (markMinesK cs kl fs).2 ⊆ B := by
  induction cs generalizing kl fs with
  | nil => exact ⟨hkl, hfs⟩
  | cons c cs ih =>
    refine ih (fun x hx => hcs x (by simp [hx])) ?_ ?_
    · intro t ht
      simp only [markMineK, List.mem_map] at ht
      obtain ⟨u, hu, rfl⟩ := ht
      exact Sound1_mark_mine (hcs c (by simp)) (hkl u hu)
    · show insert c fs ⊆ B
      exact Finset.insert_subset_iff.mpr ⟨hcs c (by simp), hfs⟩

/-- One iteration of the propagation pass preserves the soundness
invariant, given the element it processes is sound. -/
theorem stepA_sound {B : Finset Cell} {p : PropSt} {s : Sentence}
    (hs : Sound1 B s) (hkl : ∀ t ∈ p.kl, Sound1 B t)
    (hsafes : p.safes ∩ B = ∅) (hmines : p.mines ⊆ B)
    (hfr : ∀ v, p.ns = Sum.inr v → Sound1 B v) :
    (∀ t ∈ (stepA p s).kl, Sound1 B t) ∧ (stepA p s).safes ∩ B = ∅ ∧
    (stepA p s).mines ⊆ B ∧ (∀ v, (stepA p s).ns = Sum.inr v → Sound1 B v) := by
  have hsafeL : ∀ c ∈ sortedCells s.known_safes, c ∉ B := fun c hc =>
    known_safes_not_mine hs (mem_sortedCells.mp hc)
  have hmineL : ∀ c ∈ sortedCells s.known_mines, c ∈ B := fun c hc =>
    known_mines_mine hs (mem_sortedCells.mp hc)
  have hkn : (∀ t ∈ (if s.cells = ∅ then removeEqAdj p.kl s p.ns else (p.kl, p.ns)).1,
        Sound1 B t) ∧
      (∀ v, (if s.cells = ∅ then removeEqAdj p.kl s p.ns else (p.kl, p.ns)).2 = Sum.inr v →
        Sound1 B v) := by
    split
    · exact removeEqAdj_sound hs hkl hfr
    · exact ⟨hkl, hfr⟩
  have hms := markSafesK_sound (B := B) hsafeL hkn.1 hsafes
  have hmm := markMinesK_sound (B := B) hmineL hms.1 hmines
  exact ⟨hmm.1, hms.2, hmm.2, hkn.2⟩

/-- The propagation pass preserves the soundness invariant. -/
theorem loopA_sound {B : Finset Cell} :
    ∀ (fuel : ℕ) (p : PropSt) (i : ℕ),
      (∀ t ∈ p.kl, Sound1 B t) → p.safes ∩ B = ∅ → p.mines ⊆ B →
      (∀ v, p.ns = Sum.inr v → Sound1 B v) →
      (∀ t ∈ (loopA fuel p i).kl, Sound1 B t) ∧ (loopA fuel p i).safes ∩ B = ∅ ∧
      (loopA fuel p i).mines ⊆ B ∧
      (∀ v, (loopA fuel p i).ns = Sum.inr v → Sound1 B v) := by
  intro fuel
  induction fuel with
  | zero => exact fun p i h1 h2 h3 h4 => ⟨h1, h2, h3, h4⟩
  | succ fuel ih =>
    intro p i h1 h2 h3 h4
    simp only [loopA]
    split
    case isTrue h =>
      have hstep := stepA_sound (h1 _ (p.kl.get_mem i h)) h1 h2 h3 h4
      exact ih _ _ hstep.1 hstep.2.1 hstep.2.2.1 hstep.2.2.2
    case isFalse => exact ⟨h1, h2, h3, h4⟩

/-- One iteration of the condensation pass preserves the soundness
invariant. -/
theorem stepB_sound {B : Finset Cell} {moves : Finset Cell}
    (hmoves : moves ∩ B = ∅) {c : CondSt} {s : Sentence} {i : ℕ}
    (hs : Sound1 B s) (hkl : ∀ t ∈ c.kl, Sound1 B t)
    (hcnd : ∀ t ∈ c.cnd, Sound1 B t)
    (hfr : ∀ v, c.ns = Sum.inr v → Sound1 B v) :
    (∀ t ∈ (stepB moves c s i).kl, Sound1 B t) ∧
    (∀ t ∈ (stepB moves c s i).cnd, Sound1 B t) ∧
    (∀ v, (stepB moves c s i).ns = Sum.inr v → Sound1 B v) := by
  have hnsv : Sound1 B (nsValOf c.kl c.ns) := by
    cases hns : c.ns with
    | inl p =>
      show Sound1 B (c.kl.getD p ⟨∅, 0⟩)
      rcases getD_mem_or_default c.kl p ⟨∅, 0⟩ with h | h
      · exact hkl _ h
      · rw [h]; unfold Sound1; simp
    | inr v => exact hfr v hns
  unfold stepB
  dsimp only
  split
  case isTrue hse =>
    have hr := removeEqAdj_sound hs hkl hfr
    exact ⟨hr.1, hcnd, hr.2⟩
  case isFalse hse =>
    split
    case isTrue => exact ⟨hkl, hcnd, hfr⟩
    case isFalse =>
      split
      case isTrue hsub =>
        refine ⟨hkl, ?_, hfr⟩
        intro t ht
        rcases List.mem_append.mp ht with h1 | h1
        · exact hcnd t h1
        · rw [List.mem_singleton.mp h1]
          exact Sound1_condense hs hnsv hsub
      case isFalse =>
        split
        case isTrue hsub =>
          refine ⟨hkl, ?_, hfr⟩
          intro t ht
          rcases List.mem_append.mp ht with h1 | h1
          · exact hcnd t h1
          · rw [List.mem_singleton.mp h1]
            exact Sound1_condense hnsv hs hsub
        case isFalse =>
          refine ⟨?_, hcnd, hfr⟩
          intro t ht
          rcases List.mem_or_eq_of_mem_set ht with h1 | h1
          · exact hkl t h1
          · rw [h1]
            exact Sound1_sdiff_moves hmoves hs

/-- The condensation pass preserves the soundness invariant. -/
theorem loopB_sound {B : Finset Cell} {moves : Finset Cell}
    (hmoves : moves ∩ B = ∅) :
    ∀ (fuel : ℕ) (c : CondSt) (i : ℕ),
      (∀ t ∈ c.kl, Sound1 B t) → (∀ t ∈ c.cnd, Sound1 B t) →
      (∀ v, c.ns = Sum.inr v → Sound1 B v) →
      (∀ t ∈ (loopB moves fuel c i).kl, Sound1 B t) ∧
      (∀ t ∈ (loopB moves fuel c i).cnd, Sound1 B t) ∧
      (∀ v, (loopB moves fuel c i).ns = Sum.inr v → Sound1 B v) := by
  intro fuel
  induction fuel with
  | zero => exact fun c i h1 h2 h3 => ⟨h1, h2, h3⟩
  | succ fuel ih =>
    intro c i h1 h2 h3
    simp only [loopB]
    split
    case isTrue h =>
      have hstep := @stepB_sound B moves hmoves c (c.kl.get ⟨i, h⟩) i
        (h1 _ (c.kl.get_mem i h)) h1 h2 h3
      exact ih _ _ hstep.1 hstep.2.1 hstep.2.2
    case isFalse => exact ⟨h1, h2, h3⟩

/-- Whatever survives the removal phase (lines 267-273) was in the list. -/
theorem mem_removeBranch {kl data : List Sentence} {w t : Sentence}
    (h : t ∈ (if 1 < data.length then
        data.foldl (fun k s => if s ∈ k then eraseFirst k s else k) kl
      else if data.length = 1 then
        (if w ∈ kl then eraseFirst kl (data.getD 0 ⟨∅, 0⟩) else kl)
      else kl)) : t ∈ kl := by
  split at h
  · exact mem_foldl_erase h
  · split at h
    · split at h
      · exact mem_eraseFirst h
      · exact h
    · exact h

/-- Whatever the insertion phase (lines 274-280) produces came from the
base list, the condensed list, or is the placeholder empty sentence. -/
theorem mem_insertBranch {kl cnd : List Sentence} {w t : Sentence}
    (h : t ∈ (if 1 < cnd.length then dedupAppend kl cnd
      else if cnd.length = 1 then (if w ∈ kl then kl else kl ++ [cnd.getD 0 ⟨∅, 0⟩])
      else kl)) : t ∈ kl ∨ t ∈ cnd ∨ t = ⟨∅, 0⟩ := by
  split at h
  · rcases mem_dedupAppend h with h1 | h1
    · exact Or.inl h1
    · exact Or.inr (Or.inl h1)
  · split at h
    · split at h
      · exact Or.inl h
      · rcases List.mem_append.mp h with h1 | h1
        · exact Or.inl h1
        · have ht := List.mem_singleton.mp h1
          rcases getD_mem_or_default cnd 0 ⟨∅, 0⟩ with h2 | h2
          · exact Or.inr (Or.inl (by rw [ht]; exact h2))
          · exact Or.inr (Or.inr (ht.trans h2))
    · exact Or.inl h

/-- Marking a non-mine cell in every sentence preserves soundness. -/
theorem map_mark_safe_sound {B : Finset Cell} {kl : List Sentence} {c : Cell}
    (hc : c ∉ B) (hkl : ∀ t ∈ kl, Sound1 B t) :
    ∀ t ∈ kl.map (fun s => s.mark_safe c), Sound1 B t := by
  intro t ht
  simp only [List.mem_map] at ht
  obtain ⟨u, hu, rfl⟩ := ht
  exact Sound1_mark_safe hc (hkl u hu)

/-- Marking a mine cell in every sentence preserves soundness. -/
theorem map_mark_mine_sound {B : Finset Cell} {kl : List Sentence} {c : Cell}
    (hc : c ∈ B) (hkl : ∀ t ∈ kl, Sound1 B t) :
    ∀ t ∈ kl.map (fun s => s.mark_mine c), Sound1 B t := by
  intro t ht
  simp only [List.mem_map] at ht
  obtain ⟨u, hu, rfl⟩ := ht
  exact Sound1_mark_mine hc (hkl u hu)

/-- The central preservation theorem: a truthful observation keeps the
agent state consistent with the board. -/
theorem add_knowledge_sound {B : Finset Cell} {st : AIState} {cell : Cell}
    (hst : SoundState B st) (hcell : cell ∉ B) :
    SoundState B (add_knowledge st cell (nearbyMines B cell)) := by
  obtain ⟨hkl, hsafes, hmines, hmoves⟩ := hst
  have hmoves1 : (insert cell st.moves_made) ∩ B = ∅ := by
    rw [Finset.insert_inter_of_not_mem hcell]; exact hmoves
  have hfr0 : ∀ (q : ℕ) (v : Sentence), (Sum.inl q : ℕ ⊕ Sentence) = Sum.inr v →
      Sound1 B v := fun q v hv => absurd hv (by simp)
  unfold add_knowledge
  dsimp only [AIState.mark_safe]
  split
  case isTrue hcs =>
    set kl1 := (st.knowledge.map (fun s => s.mark_safe cell)) ++
        [⟨nbrCells cell (insert cell st.moves_made), nearbyMines B cell⟩] with hk1
    have hkl1 : ∀ t ∈ kl1, Sound1 B t := by
      intro t ht
      rw [hk1] at ht
      rcases List.mem_append.mp ht with h1 | h1
      · exact map_mark_safe_sound hcell hkl t h1
      · rw [List.mem_singleton.mp h1]
        exact Sound1_new cell _ hmoves1
    have ha := loopA_sound kl1.length ⟨kl1, st.safes, st.mines, Sum.inl (kl1.length - 1)⟩ 0
      hkl1 hsafes hmines (hfr0 _)
    have hb := loopB_sound hmoves1
      (loopA kl1.length ⟨kl1, st.safes, st.mines, Sum.inl (kl1.length - 1)⟩ 0).kl.length
      ⟨(loopA kl1.length ⟨kl1, st.safes, st.mines, Sum.inl (kl1.length - 1)⟩ 0).kl,
       (loopA kl1.length ⟨kl1, st.safes, st.mines, Sum.inl (kl1.length - 1)⟩ 0).ns,
       [], [], ⟨∅, 0⟩⟩ 0 ha.1 (by simp) ha.2.2.2
    refine ⟨?_, ha.2.1, ha.2.2.1, hmoves1⟩
    intro t ht
    rcases mem_insertBranch ht with h1 | h1 | h1
    · exact hb.1 t (mem_removeBranch h1)
    · exact hb.2.1 t h1
    · rw [h1]; unfold Sound1; simp
  case isFalse hcs =>
    have hsafes2 : (insert cell st.safes) ∩ B = ∅ := by
      rw [Finset.insert_inter_of_not_mem hcell]; exact hsafes
    set kl1 := ((st.knowledge.map (fun s => s.mark_safe cell)).map
          (fun s => s.mark_safe cell)) ++
        [⟨nbrCells cell (insert cell st.moves_made), nearbyMines B cell⟩] with hk1
    have hkl1 : ∀ t ∈ kl1, Sound1 B t := by
      intro t ht
      rw [hk1] at ht
      rcases List.mem_append.mp ht with h1 | h1
      · exact map_mark_safe_sound hcell (map_mark_safe_sound hcell hkl) t h1
      · rw [List.mem_singleton.mp h1]
        exact Sound1_new cell _ hmoves1
    have ha := loopA_sound kl1.length
      ⟨kl1, insert cell st.safes, st.mines, Sum.inl (kl1.length - 1)⟩ 0
      hkl1 hsafes2 hmines (hfr0 _)
    have hb := loopB_sound hmoves1
      (loopA kl1.length ⟨kl1, insert cell st.safes, st.mines, Sum.inl (kl1.length - 1)⟩
        0).kl.length
      ⟨(loopA kl1.length ⟨kl1, insert cell st.safes, st.mines, Sum.inl (kl1.length - 1)⟩ 0).kl,
       (loopA kl1.length ⟨kl1, insert cell st.safes, st.mines, Sum.inl (kl1.length - 1)⟩ 0).ns,
       [], [], ⟨∅, 0⟩⟩ 0 ha.1 (by simp) ha.2.2.2
    refine ⟨?_, ha.2.1, ha.2.2.1, hmoves1⟩
    intro t ht
    rcases mem_insertBranch ht with h1 | h1 | h1
    · exact hb.1 t (mem_removeBranch h1)
    · exact hb.2.1 t h1
    · rw [h1]; unfold Sound1; simp

/-- Consistently flagging a mine preserves state soundness. -/
theorem mark_mine_sound {B : Finset Cell} {st : AIState} {c : Cell}
    (hc : c ∈ B) (hst : SoundState B st) : SoundState B (st.mark_mine c) := by
  obtain ⟨hkl, hsafes, hmines, hmoves⟩ := hst
  exact ⟨map_mark_mine_sound hc hkl, hsafes,
    Finset.insert_subset_iff.mpr ⟨hc, hmines⟩, hmoves⟩

/-- Consistently marking a mine-free cell safe preserves state
soundness. -/
theorem mark_safe_sound {B : Finset Cell} {st : AIState} {c : Cell}
    (hc : c ∉ B) (hst : SoundState B st) : SoundState B (st.mark_safe c) := by
  obtain ⟨hkl, hsafes, hmines, hmoves⟩ := hst
  refine ⟨map_mark_safe_sound hc hkl, ?_, hmines, hmoves⟩
  show (insert c st.safes) ∩ B = ∅
  rw [Finset.insert_inter_of_not_mem hc]
  exact hsafes

/-- Every state reachable by consistent play is consistent with the
board. -/
theorem reaches_sound {B : Finset Cell} {st : AIState} (h : Reaches B st) :
    SoundState B st := by
  induction h with
  | start h w =>
    exact ⟨by simp [initAI], by simp [initAI], by simp [initAI], by simp [initAI]⟩
  | addK cell hst hc ih => exact add_knowledge_sound ih hc
  | markM c hst hc ih => exact mark_mine_sound hc ih
  | markS c hst hc ih => exact mark_safe_sound hc ih

/-- Claim C4: from any agent state consistent with the (8×8) board and
for any truthful observation, every sentence in the knowledge base after
`add_knowledge` returns — in particular every sentence derived by
condensation — satisfies `0 ≤ count ≤ |cells|`. -/
theorem c4_sentence_bounds {B : Finset Cell} {st : AIState} (cell : Cell)
    (hst : SoundState B st) (hcell : cell ∉ B) :
    ∀ s ∈ (add_knowledge st cell (nearbyMines B cell)).knowledge,
      0 ≤ s.count ∧ s.count ≤ (s.cells.card : ℤ) := by
  intro s hs
  have hsound := (add_knowledge_sound hst hcell).1 s hs
  unfold Sound1 at hsound
  have h1 : (s.cells.filter (fun x => x ∈ B)).card ≤ s.cells.card :=
    Finset.card_filter_le _ _
  omega

/-- Witness for C4 on a concrete run: a fresh agent observing `(1,1)`
with the truthful count 1 for the board whose only mine is `(0,0)` ends
with the eight-cell sentence of count 1, which satisfies the bounds. -/
theorem c4_sentence_bounds_witness :
    0 ≤ (⟨nbrCells (1, 1) {((1, 1) : Cell)}, 1⟩ : Sentence).count ∧
    (⟨nbrCells (1, 1) {((1, 1) : Cell)}, 1⟩ : Sentence).count ≤
      ((⟨nbrCells (1, 1) {((1, 1) : Cell)}, 1⟩ : Sentence).cells.card : ℤ) := by
  exact @c4_sentence_bounds {((0, 0) : Cell)} (initAI 8 8) (1, 1)
    ⟨by simp [initAI], by simp [initAI], by simp [initAI], by simp [initAI]⟩
    (by decide) ⟨nbrCells (1, 1) {((1, 1) : Cell)}, 1⟩ (by decide)

/-- Claim C7: at every state reachable by public operations played
consistently against a board, the `safes` and `mines` sets are
disjoint. -/
theorem c7_safes_mines_disjoint {B : Finset Cell} {st : AIState}
    (h : Reaches B st) : st.safes ∩ st.mines = ∅ := by
  obtain ⟨-, hsafes, hmines, -⟩ := reaches_sound h
  ext x
  simp only [Finset.mem_inter, Finset.not_mem_empty, iff_false, not_and]
  intro hxs hxm
  have hx : x ∈ st.safes ∩ B := Finset.mem_inter.mpr ⟨hxs, hmines hxm⟩
  rw [hsafes] at hx
  exact absurd hx (Finset.not_mem_empty x)

/-- Witness for C7 at the initial state, reachable by construction. -/
theorem c7_safes_mines_disjoint_witness :
    (initAI 8 8).safes ∩ (initAI 8 8).mines = ∅ :=
  c7_safes_mines_disjoint (Reaches.start (B := ∅) 8 8)

/-- One propagation iteration only grows the global sets. -/
theorem stepA_grow (p : PropSt) (s : Sentence) :
    p.safes ⊆ (stepA p s).safes ∧ p.mines ⊆ (stepA p s).mines :=
  ⟨markSafesK_snd_grow _ _ _, markMinesK_snd_grow _ _ _⟩

/-- The propagation pass only grows the global sets. -/
theorem loopA_grow : ∀ (fuel : ℕ) (p : PropSt) (i : ℕ),
    p.safes ⊆ (loopA fuel p i).safes ∧ p.mines ⊆ (loopA fuel p i).mines := by
  intro fuel
  induction fuel with
  | zero => exact fun p i => ⟨Finset.Subset.refl _, Finset.Subset.refl _⟩
  | succ fuel ih =>
    intro p i
    simp only [loopA]
    split
    case isTrue h =>
      have h1 := stepA_grow p (p.kl.get ⟨i, h⟩)
      have h2 := ih (stepA p (p.kl.get ⟨i, h⟩)) (i + 1)
      exact ⟨h1.1.trans h2.1, h1.2.trans h2.2⟩
    case isFalse => exact ⟨Finset.Subset.refl _, Finset.Subset.refl _⟩

/-- Claim C9: `moves_made`, `safes` and `mines` grow monotonically — no
state-changing public operation (`add_knowledge`, `mark_safe`,
`mark_mine`) ever removes a cell from any of the three sets
(`make_safe_move` and `make_random_move` are queries and do not touch
the state at all). -/
theorem c9_sets_monotone (st : AIState) (cell c : Cell) (count : ℤ) :
    (st.moves_made ⊆ (add_knowledge st cell count).moves_made ∧
     st.safes ⊆ (add_knowledge st cell count).safes ∧
     st.mines ⊆ (add_knowledge st cell count).mines) ∧
    (st.moves_made ⊆ (st.mark_safe c).moves_made ∧
     st.safes ⊆ (st.mark_safe c).safes ∧
     st.mines ⊆ (st.mark_safe c).mines) ∧
    (st.moves_made ⊆ (st.mark_mine c).moves_made ∧
     st.safes ⊆ (st.mark_mine c).safes ∧
     st.mines ⊆ (st.mark_mine c).mines) := by
  refine ⟨⟨?_, ?_, ?_⟩, ⟨?_, ?_, ?_⟩, ⟨?_, ?_, ?_⟩⟩
  · exact Finset.subset_insert cell st.moves_made
  · unfold add_knowledge
    dsimp only [AIState.mark_safe]
    split
    case isTrue =>
      refine Finset.Subset.trans ?_ (loopA_grow _ _ 0).1
      exact Finset.Subset.refl _
    case isFalse =>
      refine Finset.Subset.trans ?_ (loopA_grow _ _ 0).1
      exact Finset.subset_insert _ _
  · unfold add_knowledge
    dsimp only [AIState.mark_safe]
    split <;>
      (refine Finset.Subset.trans ?_ (loopA_grow _ _ 0).2
       exact Finset.Subset.refl _)
  · exact Finset.Subset.refl st.moves_made
  · exact Finset.subset_insert c st.safes
  · exact Finset.Subset.refl st.mines
  · exact Finset.Subset.refl st.moves_made
  · exact Finset.Subset.refl st.safes
  · exact Finset.subset_insert c st.mines

/-! ### Cells marked during a call are purged from every sentence -/

/-- Mark maps preserve absence of a cell. -/
theorem purged_map_safe {kl : List Sentence} {c c' : Cell} (h : Purged c kl) :
    Purged c (kl.map (fun s => s.mark_safe c')) := by
  intro t ht
  simp only [List.mem_map] at ht
  obtain ⟨u, hu, rfl⟩ := ht
  exact fun hc => h u hu (mark_safe_cells_subset u c' hc)

/-- Mark maps preserve absence of a cell. -/
theorem purged_map_mine {kl : List Sentence} {c c' : Cell} (h : Purged c kl) :
    Purged c (kl.map (fun s => s.mark_mine c')) := by
  intro t ht
  simp only [List.mem_map] at ht
  obtain ⟨u, hu, rfl⟩ := ht
  exact fun hc => h u hu (mark_mine_cells_subset u c' hc)

/-- Marking `c` safe in every sentence purges `c` everywhere. -/
theorem purged_map_safe_self (kl : List Sentence) (c : Cell) :
    Purged c (kl.map (fun s => s.mark_safe c)) := by
  intro t ht
  simp only [List.mem_map] at ht
  obtain ⟨u, hu, rfl⟩ := ht
  exact not_mem_mark_safe u c

/-- Marking `c` a mine in every sentence purges `c` everywhere. -/
theorem purged_map_mine_self (kl : List Sentence) (c : Cell) :
    Purged c (kl.map (fun s => s.mark_mine c)) := by
  intro t ht
  simp only [List.mem_map] at ht
  obtain ⟨u, hu, rfl⟩ := ht
  exact not_mem_mark_mine u c

/-- The safe-marking fold preserves a purged cell. -/
theorem markSafesK_purged_pres {cs : List Cell} {kl : List Sentence} {fs : Finset Cell}
    {c : Cell} (h : Purged c kl) : Purged c (markSafesK cs kl fs).1 := by
  induction cs generalizing kl fs with
  | nil => exact h
  | cons a as ih => exact @ih (markSafeK kl fs a).1 (markSafeK kl fs a).2 (purged_map_safe h)

/-- The mine-marking fold preserves a purged cell. -/
theorem markMinesK_purged_pres {cs : List Cell} {kl : List Sentence} {fs : Finset Cell}
    {c : Cell} (h : Purged c kl) : Purged c (markMinesK cs kl fs).1 := by
  induction cs generalizing kl fs with
  | nil => exact h
  | cons a as ih => exact @ih (markMineK kl fs a).1 (markMineK kl fs a).2 (purged_map_mine h)

/-- A cell marked safe during the fold ends purged from every sentence. -/
theorem markSafesK_purged_new {cs : List Cell} {kl : List Sentence} {fs : Finset Cell}
    {c : Cell} (hc : c ∈ cs) : Purged c (markSafesK cs kl fs).1 := by
  induction cs generalizing kl fs with
  | nil => exact absurd hc (List.not_mem_nil c)
  | cons a as ih =>
    rcases List.mem_cons.mp hc with h | h
    · subst h
      exact @markSafesK_purged_pres as (markSafeK kl fs c).1 (markSafeK kl fs c).2 c
        (purged_map_safe_self kl c)
    · exact @ih (markSafeK kl fs a).1 (markSafeK kl fs a).2 h

/-- A cell marked as mine during the fold ends purged from every
sentence. -/
theorem markMinesK_purged_new {cs : List Cell} {kl : List Sentence} {fs : Finset Cell}
    {c : Cell} (hc : c ∈ cs) : Purged c (markMinesK cs kl fs).1 := by
  induction cs generalizing kl fs with
  | nil => exact absurd hc (List.not_mem_nil c)
  | cons a as ih =>
    rcases List.mem_cons.mp hc with h | h
    · subst h
      exact @markMinesK_purged_pres as (markMineK kl fs c).1 (markMineK kl fs c).2 c
        (purged_map_mine_self kl c)
    · exact @ih (markMineK kl fs a).1 (markMineK kl fs a).2 h

/-- Removal preserves a purged cell. -/
theorem removeEqAdj_purged {kl : List Sentence} {s : Sentence} {ns : ℕ ⊕ Sentence}
    {c : Cell} (h : Purged c kl) : Purged c (removeEqAdj kl s ns).1 :=
  fun t ht => h t (removeEqAdj_fst_sub t ht)

/-- Removing an emptied sentence freezes only empty-celled values. -/
theorem removeEqAdj_nsEmpty {kl : List Sentence} {s : Sentence} {ns : ℕ ⊕ Sentence}
    (hse : s.cells = ∅) (h : NsEmpty ns) : NsEmpty (removeEqAdj kl s ns).2 := by
  cases hr : (removeEqAdj kl s ns).2 with
  | inl p => trivial
  | inr v =>
    rcases removeEqAdj_snd_frozen hr with h1 | h1
    · rw [h1] at h; exact h
    · show v.cells = ∅
      rw [h1]; exact hse

/-- If a cell is purged from the list and any frozen value is empty,
the cell is absent from the `new_sentence` value. -/
theorem purged_nsValOf {c : Cell} {kl : List Sentence} {ns : ℕ ⊕ Sentence}
    (h : Purged c kl) (hns : NsEmpty ns) : c ∉ (nsValOf kl ns).cells := by
  cases ns with
  | inl p =>
    show c ∉ (kl.getD p ⟨∅, 0⟩).cells
    rcases getD_mem_or_default kl p ⟨∅, 0⟩ with h1 | h1
    · exact h _ h1
    · rw [h1]; simp
  | inr v =>
    show c ∉ v.cells
    have hv : v.cells = ∅ := hns
    rw [hv]; simp

/-- One propagation iteration: cells in the resulting global sets are
purged from every sentence, provided that already held before. -/
theorem stepA_purged {c : Cell} {p : PropSt} {s : Sentence}
    (h1 : (c ∈ p.safes ∨ c ∈ p.mines) → Purged c p.kl) (h2 : NsEmpty p.ns) :
    ((c ∈ (stepA p s).safes ∨ c ∈ (stepA p s).mines) → Purged c (stepA p s).kl) ∧
    NsEmpty (stepA p s).ns := by
  constructor
  · intro hmem
    have hkn : (c ∈ p.safes ∨ c ∈ p.mines) →
        Purged c (if s.cells = ∅ then removeEqAdj p.kl s p.ns else (p.kl, p.ns)).1 := by
      intro hin
      split
      · exact removeEqAdj_purged (h1 hin)
      · exact h1 hin
    rcases hmem with hs | hm
    · have hs' : c ∈ (markSafesK (sortedCells s.known_safes)
          (if s.cells = ∅ then removeEqAdj p.kl s p.ns else (p.kl, p.ns)).1 p.safes).2 := hs
      rcases markSafesK_snd_mem hs' with h3 | h3
      · exact markMinesK_purged_pres (markSafesK_purged_pres (hkn (Or.inl h3)))
      · exact markMinesK_purged_pres (markSafesK_purged_new h3)
    · have hm' : c ∈ (markMinesK (sortedCells s.known_mines)
          (markSafesK (sortedCells s.known_safes)
            (if s.cells = ∅ then removeEqAdj p.kl s p.ns else (p.kl, p.ns)).1 p.safes).1
          p.mines).2 := hm
      rcases markMinesK_snd_mem hm' with h3 | h3
      · exact markMinesK_purged_pres (markSafesK_purged_pres (hkn (Or.inr h3)))
      · exact markMinesK_purged_new h3
  · show NsEmpty (if s.cells = ∅ then removeEqAdj p.kl s p.ns else (p.kl, p.ns)).2
    split
    case isTrue hse => exact removeEqAdj_nsEmpty hse h2
    case isFalse => exact h2

/-- The propagation pass: cells in the resulting global sets are purged
from every sentence. -/
theorem loopA_purged {c : Cell} : ∀ (fuel : ℕ) (p : PropSt) (i : ℕ),
    ((c ∈ p.safes ∨ c ∈ p.mines) → Purged c p.kl) → NsEmpty p.ns →
    ((c ∈ (loopA fuel p i).safes ∨ c ∈ (loopA fuel p i).mines) →
      Purged c (loopA fuel p i).kl) ∧ NsEmpty (loopA fuel p i).ns := by
  intro fuel
  induction fuel with
  | zero => exact fun p i h1 h2 => ⟨h1, h2⟩
  | succ fuel ih =>
    intro p i h1 h2
    simp only [loopA]
    split
    case isTrue h =>
      have hstep := stepA_purged (s := p.kl.get ⟨i, h⟩) h1 h2
      exact ih _ _ hstep.1 hstep.2
    case isFalse => exact ⟨h1, h2⟩

/-- One condensation iteration preserves a purged cell everywhere it can
end up. -/
theorem stepB_purged {c : Cell} {moves : Finset Cell} {cst : CondSt} {s : Sentence}
    {i : ℕ} (hs : c ∉ s.cells) (h1 : Purged c cst.kl) (h2 : NsEmpty cst.ns)
    (h3 : ∀ t ∈ cst.cnd, c ∉ t.cells) :
    Purged c (stepB moves cst s i).kl ∧ NsEmpty (stepB moves cst s i).ns ∧
    (∀ t ∈ (stepB moves cst s i).cnd, c ∉ t.cells) := by
  have hnsv : c ∉ (nsValOf cst.kl cst.ns).cells := purged_nsValOf h1 h2
  unfold stepB
  dsimp only
  split
  case isTrue hse =>
    exact ⟨removeEqAdj_purged h1, removeEqAdj_nsEmpty hse h2, h3⟩
  case isFalse =>
    split
    case isTrue => exact ⟨h1, h2, h3⟩
    case isFalse =>
      split
      case isTrue hsub =>
        refine ⟨h1, h2, ?_⟩
        intro t ht
        rcases List.mem_append.mp ht with ht1 | ht1
        · exact h3 t ht1
        · rw [List.mem_singleton.mp ht1]
          intro hcm
          exact hs (Finset.mem_sdiff.mp hcm).1
      case isFalse =>
        split
        case isTrue hsub =>
          refine ⟨h1, h2, ?_⟩
          intro t ht
          rcases List.mem_append.mp ht with ht1 | ht1
          · exact h3 t ht1
          · rw [List.mem_singleton.mp ht1]
            intro hcm
            exact hnsv (Finset.mem_sdiff.mp hcm).1
        case isFalse =>
          refine ⟨?_, h2, h3⟩
          intro t ht
          rcases List.mem_or_eq_of_mem_set ht with ht1 | ht1
          · exact h1 t ht1
          · rw [ht1]
            intro hcm
            exact hs (Finset.mem_sdiff.mp hcm).1

/-- The condensation pass preserves a purged cell everywhere. -/
theorem loopB_purged {c : Cell} (moves : Finset Cell) :
    ∀ (fuel : ℕ) (cst : CondSt) (i : ℕ),
      Purged c cst.kl → NsEmpty cst.ns → (∀ t ∈ cst.cnd, c ∉ t.cells) →
      Purged c (loopB moves fuel cst i).kl ∧ NsEmpty (loopB moves fuel cst i).ns ∧
      (∀ t ∈ (loopB moves fuel cst i).cnd, c ∉ t.cells) := by
  intro fuel
  induction fuel with
  | zero => exact fun cst i h1 h2 h3 => ⟨h1, h2, h3⟩
  | succ fuel ih =>
    intro cst i h1 h2 h3
    simp only [loopB]
    split
    case isTrue h =>
      have hstep := @stepB_purged c moves cst (cst.kl.get ⟨i, h⟩) i
        (h1 _ (cst.kl.get_mem i h)) h1 h2 h3
      exact ih _ _ hstep.1 hstep.2.1 hstep.2.2
    case isFalse => exact ⟨h1, h2, h3⟩

/-- The observed cell itself never appears among the neighbours built
for it (the `i = j = 0` offset is excluded). -/
theorem not_self_mem_nbrCells (cell : Cell) (moves : Finset Cell) :
    cell ∉ nbrCells cell moves := by
  intro h
  simp only [nbrCells, Finset.mem_image, Finset.mem_filter] at h
  obtain ⟨p, ⟨-, -, -, -, -, h5⟩, heq⟩ := h
  have h1 : cell.1 + p.1 = cell.1 := congrArg Prod.fst heq
  have h2 : cell.2 + p.2 = cell.2 := congrArg Prod.snd heq
  rcases h5 with h | ⟨h, -⟩
  · exact h (by omega)
  · exact h (by omega)

/-- A purged cell stays absent when a fresh sentence free of it is
appended. -/
theorem purged_append_single {c : Cell} {kl : List Sentence} {x : Sentence}
    (h : Purged c kl) (hx : c ∉ x.cells) : Purged c (kl ++ [x]) := by
  intro t ht
  rcases List.mem_append.mp ht with h1 | h1
  · exact h t h1
  · rw [List.mem_singleton.mp h1]; exact hx

/-- Claim C1, amended: after `add_knowledge` returns, no sentence in the
knowledge base contains a cell that was newly added to `safes` or
`mines` during that call.  (The claim as stated fails — see the
counterexample above — because a cell already known before the call can
re-enter through the freshly built sentence, and the single marking
pass never revisits it.) -/
theorem c1_newly_marked_cells_purged (st : AIState) (cell : Cell) (count : ℤ) (c : Cell)
    (hcs : c ∉ st.safes) (hcm : c ∉ st.mines)
    (hmem : c ∈ (add_knowledge st cell count).safes ∨
            c ∈ (add_knowledge st cell count).mines) :
    ∀ s ∈ (add_knowledge st cell count).knowledge, c ∉ s.cells := by
  unfold add_knowledge at hmem ⊢
  dsimp only at hmem ⊢
  split at hmem
  case isTrue hcase =>
    rw [if_pos hcase]
    have h1 : (c ∈ st.safes ∨ c ∈ st.mines) →
        Purged c ((st.knowledge.map (fun s => s.mark_safe cell)) ++
          [⟨nbrCells cell (insert cell st.moves_made), count⟩]) := by
      intro hin
      exact hin.elim (fun hh => absurd hh hcs) (fun hh => absurd hh hcm)
    have ha := loopA_purged
      ((st.knowledge.map (fun s => s.mark_safe cell)) ++
        [(⟨nbrCells cell (insert cell st.moves_made), count⟩ : Sentence)]).length
      ⟨(st.knowledge.map (fun s => s.mark_safe cell)) ++
        [⟨nbrCells cell (insert cell st.moves_made), count⟩], st.safes, st.mines,
        Sum.inl (((st.knowledge.map (fun s => s.mark_safe cell)) ++
          [(⟨nbrCells cell (insert cell st.moves_made), count⟩ : Sentence)]).length - 1)⟩
      0 h1 trivial
    have hmem2 : c ∈ (loopA
        ((st.knowledge.map (fun s => s.mark_safe cell)) ++
          [(⟨nbrCells cell (insert cell st.moves_made), count⟩ : Sentence)]).length
        ⟨(st.knowledge.map (fun s => s.mark_safe cell)) ++
          [⟨nbrCells cell (insert cell st.moves_made), count⟩], st.safes, st.mines,
          Sum.inl (((st.knowledge.map (fun s => s.mark_safe cell)) ++
            [(⟨nbrCells cell (insert cell st.moves_made), count⟩ : Sentence)]).length - 1)⟩
        0).safes ∨ c ∈ (loopA
        ((st.knowledge.map (fun s => s.mark_safe cell)) ++
          [(⟨nbrCells cell (insert cell st.moves_made), count⟩ : Sentence)]).length
        ⟨(st.knowledge.map (fun s => s.mark_safe cell)) ++
          [⟨nbrCells cell (insert cell st.moves_made), count⟩], st.safes, st.mines,
          Sum.inl (((st.knowledge.map (fun s => s.mark_safe cell)) ++
            [(⟨nbrCells cell (insert cell st.moves_made), count⟩ : Sentence)]).length - 1)⟩
        0).mines := hmem
    have hb := loopB_purged (insert cell st.moves_made)
      (loopA
        ((st.knowledge.map (fun s => s.mark_safe cell)) ++
          [(⟨nbrCells cell (insert cell st.moves_made), count⟩ : Sentence)]).length
        ⟨(st.knowledge.map (fun s => s.mark_safe cell)) ++
          [⟨nbrCells cell (insert cell st.moves_made), count⟩], st.safes, st.mines,
          Sum.inl (((st.knowledge.map (fun s => s.mark_safe cell)) ++
            [(⟨nbrCells cell (insert cell st.moves_made), count⟩ : Sentence)]).length - 1)⟩
        0).kl.length
      ⟨(loopA
        ((st.knowledge.map (fun s => s.mark_safe cell)) ++
          [(⟨nbrCells cell (insert cell st.moves_made), count⟩ : Sentence)]).length
        ⟨(st.knowledge.map (fun s => s.mark_safe cell)) ++
          [⟨nbrCells cell (insert cell st.moves_made), count⟩], st.safes, st.mines,
          Sum.inl (((st.knowledge.map (fun s => s.mark_safe cell)) ++
            [(⟨nbrCells cell (insert cell st.moves_made), count⟩ : Sentence)]).length - 1)⟩
        0).kl,
       (loopA
        ((st.knowledge.map (fun s => s.mark_safe cell)) ++
          [(⟨nbrCells cell (insert cell st.moves_made), count⟩ : Sentence)]).length
        ⟨(st.knowledge.map (fun s => s.mark_safe cell)) ++
          [⟨nbrCells cell (insert cell st.moves_made), count⟩], st.safes, st.mines,
          Sum.inl (((st.knowledge.map (fun s => s.mark_safe cell)) ++
            [(⟨nbrCells cell (insert cell st.moves_made), count⟩ : Sentence)]).length - 1)⟩
        0).ns, [], [], ⟨∅, 0⟩⟩ 0 (ha.1 hmem2) ha.2 (by simp)
    intro t ht
    rcases mem_insertBranch ht with h2 | h2 | h2
    · exact hb.1 t (mem_removeBranch h2)
    · exact hb.2.2 t h2
    · rw [h2]; simp
  case isFalse hcase =>
    rw [if_neg hcase]
    have h1 : (c ∈ insert cell st.safes ∨ c ∈ st.mines) →
        Purged c (((st.knowledge.map (fun s => s.mark_safe cell)).map
            (fun s => s.mark_safe cell)) ++
          [⟨nbrCells cell (insert cell st.moves_made), count⟩]) := by
      intro hin
      rcases hin with hh | hh
      · rcases Finset.mem_insert.mp hh with hh2 | hh2
        · subst hh2
          exact purged_append_single
            (purged_map_safe_self (st.knowledge.map (fun s => s.mark_safe c)) c)
            (not_self_mem_nbrCells c _)
        · exact absurd hh2 hcs
      · exact absurd hh hcm
    have ha := loopA_purged
      (((st.knowledge.map (fun s => s.mark_safe cell)).map
          (fun s => s.mark_safe cell)) ++
        [(⟨nbrCells cell (insert cell st.moves_made), count⟩ : Sentence)]).length
      ⟨((st.knowledge.map (fun s => s.mark_safe cell)).map
          (fun s => s.mark_safe cell)) ++
        [⟨nbrCells cell (insert cell st.moves_made), count⟩], insert cell st.safes,
        st.mines,
        Sum.inl ((((st.knowledge.map (fun s => s.mark_safe cell)).map
            (fun s => s.mark_safe cell)) ++
          [(⟨nbrCells cell (insert cell st.moves_made), count⟩ : Sentence)]).length - 1)⟩
      0 h1 trivial
    have hmem2 : c ∈ (loopA
        (((st.knowledge.map (fun s => s.mark_safe cell)).map
            (fun s => s.mark_safe cell)) ++
          [(⟨nbrCells cell (insert cell st.moves_made), count⟩ : Sentence)]).length
        ⟨((st.knowledge.map (fun s => s.mark_safe cell)).map
            (fun s => s.mark_safe cell)) ++
          [⟨nbrCells cell (insert cell st.moves_made), count⟩], insert cell st.safes,
          st.mines,
          Sum.inl ((((st.knowledge.map (fun s => s.mark_safe cell)).map
              (fun s => s.mark_safe cell)) ++
            [(⟨nbrCells cell (insert cell st.moves_made), count⟩ : Sentence)]).length - 1)⟩
        0).safes ∨ c ∈ (loopA
        (((st.knowledge.map (fun s => s.mark_safe cell)).map
            (fun s => s.mark_safe cell)) ++
          [(⟨nbrCells cell (insert cell st.moves_made), count⟩ : Sentence)]).length
        ⟨((st.knowledge.map (fun s => s.mark_safe cell)).map
            (fun s => s.mark_safe cell)) ++
          [⟨nbrCells cell (insert cell st.moves_made), count⟩], insert cell st.safes,
          st.mines,
          Sum.inl ((((st.knowledge.map (fun s => s.mark_safe cell)).map
              (fun s => s.mark_safe cell)) ++
            [(⟨nbrCells cell (insert cell st.moves_made), count⟩ : Sentence)]).length - 1)⟩
        0).mines := hmem
    have hb := loopB_purged (insert cell st.moves_made)
      (loopA
        (((st.knowledge.map (fun s => s.mark_safe cell)).map
            (fun s => s.mark_safe cell)) ++
          [(⟨nbrCells cell (insert cell st.moves_made), count⟩ : Sentence)]).length
        ⟨((st.knowledge.map (fun s => s.mark_safe cell)).map
            (fun s => s.mark_safe cell)) ++
          [⟨nbrCells cell (insert cell st.moves_made), count⟩], insert cell st.safes,
          st.mines,
          Sum.inl ((((st.knowledge.map (fun s => s.mark_safe cell)).map
              (fun s => s.mark_safe cell)) ++
            [(⟨nbrCells cell (insert cell st.moves_made), count⟩ : Sentence)]).length - 1)⟩
        0).kl.length
      ⟨(loopA
        (((st.knowledge.map (fun s => s.mark_safe cell)).map
            (fun s => s.mark_safe cell)) ++
          [(⟨nbrCells cell (insert cell st.moves_made), count⟩ : Sentence)]).length
        ⟨((st.knowledge.map (fun s => s.mark_safe cell)).map
            (fun s => s.mark_safe cell)) ++
          [⟨nbrCells cell (insert cell st.moves_made), count⟩], insert cell st.safes,
          st.mines,
          Sum.inl ((((st.knowledge.map (fun s => s.mark_safe cell)).map
              (fun s => s.mark_safe cell)) ++
            [(⟨nbrCells cell (insert cell st.moves_made), count⟩ : Sentence)]).length - 1)⟩
        0).kl,
       (loopA
        (((st.knowledge.map (fun s => s.mark_safe cell)).map
            (fun s => s.mark_safe cell)) ++
          [(⟨nbrCells cell (insert cell st.moves_made), count⟩ : Sentence)]).length
        ⟨((st.knowledge.map (fun s => s.mark_safe cell)).map
            (fun s => s.mark_safe cell)) ++
          [⟨nbrCells cell (insert cell st.moves_made), count⟩], insert cell st.safes,
          st.mines,
          Sum.inl ((((st.knowledge.map (fun s => s.mark_safe cell)).map
              (fun s => s.mark_safe cell)) ++
            [(⟨nbrCells cell (insert cell st.moves_made), count⟩ : Sentence)]).length - 1)⟩
        0).ns, [], [], ⟨∅, 0⟩⟩ 0 (ha.1 hmem2) ha.2 (by simp)
    intro t ht
    rcases mem_insertBranch ht with h2 | h2 | h2
    · exact hb.1 t (mem_removeBranch h2)
    · exact hb.2.2 t h2
    · rw [h2]; simp

/-- Witness for the amended C1 at a concrete run: observing `(1,1)`
with count 0 newly marks `(0,0)` safe, and the surviving condensed
sentence `{(5,5)} = 1` indeed does not contain it. -/
theorem c1_newly_marked_cells_purged_witness :
    ((0, 0) : Cell) ∉ (Sentence.mk {((5, 5) : Cell)} 1).cells :=
  c1_newly_marked_cells_purged c1wpre (1, 1) 0 (0, 0) (by decide) (by decide)
    (Or.inl (by decide)) ⟨{((5, 5) : Cell)}, 1⟩ (by decide)
